import Mathlib

/-!
Shallow embedding of the `facebook_graph_analysis` Rust crate
(`src/graph.rs`, `src/analysis.rs`) and proofs about it.

Modelling conventions:
* `HashMap<usize, HashSet<usize>>` becomes an association list
  `List (Nat × List Nat)`; the iteration order of the Rust hash map is
  unspecified, so every statement proved here holds for an arbitrary order.
* `HashSet` insertion `s.insert(x)` becomes `insertNb`, which appends `x`
  only when it is not already present, so neighbour lists of well-formed
  graphs have no duplicates (set semantics).
* `f64` arithmetic is modelled by exact rationals `ℚ`; every division the
  program performs is guarded, so no NaN can arise and the rational model
  is faithful to the sign/zero/comparison behaviour the claims are about.
* A fallible step (a Rust `panic!`, e.g. `unwrap` on a failed parse or a
  missing map key) is modelled by `Option`: `none` means the program
  panics.
* An input line is modelled after tokenisation: `List (Option Nat)`, one
  entry per whitespace-separated token, `some n` when the token parses as
  a `usize` and `none` when it does not.
-/

/-- The `Graph` struct of `graph.rs`: adjacency list plus two counters. -/
structure Graph where
  adj_list : List (Nat × List Nat)
  num_nodes : Nat
  num_edges : Nat
deriving Repr, DecidableEq

/-- `Graph::new()`: empty graph. -/
def Graph.new : Graph := ⟨[], 0, 0⟩

/-- `graph.adj_list.get(&u)` on the association-list model. -/
def getAdj (g : Graph) (u : Nat) : Option (List Nat) :=
  (g.adj_list.find? (fun p => p.1 == u)).map (·.2)

/-- The key set of the adjacency map, in iteration order. -/
def keys (g : Graph) : List Nat := g.adj_list.map (·.1)

/-- Neighbour list of `u`, empty when `u` is absent. -/
def nbrs (g : Graph) (u : Nat) : List Nat := (getAdj g u).getD []

/-- `v` is recorded as a neighbour of `u`. -/
def adjMem (g : Graph) (u v : Nat) : Prop := v ∈ nbrs g u

instance (g : Graph) (u v : Nat) : Decidable (adjMem g u v) := by
  unfold adjMem; infer_instance

/-- Executable symmetry check of the adjacency relation. -/
def isSymm (g : Graph) : Bool :=
  g.adj_list.all (fun p => p.2.all (fun n => decide (adjMem g n p.1)))

/-- Well-formedness of the hash-map/hash-set model: keys are distinct and
each neighbour list has no duplicates. -/
def WF (g : Graph) : Prop :=
  (keys g).Nodup ∧ ∀ p ∈ g.adj_list, p.2.Nodup

instance (g : Graph) : Decidable (WF g) := by
  unfold WF; infer_instance

/-- `HashSet::insert`: add `x` unless already present. -/
def insertNb (l : List Nat) (x : Nat) : List Nat :=
  if x ∈ l then l else l ++ [x]

/-- `graph.adj_list.entry(u).or_default().insert(v)`. -/
def adjInsert : List (Nat × List Nat) → Nat → Nat → List (Nat × List Nat)
  | [], u, v => [(u, [v])]
  | p :: rest, u, v =>
      if p.1 = u then (p.1, insertNb p.2 v) :: rest
      else p :: adjInsert rest u v

/-- One successfully parsed line `u v` of `load_from_file`: both directed
entries are inserted and `num_edges` is incremented unconditionally. -/
def addEdge (g : Graph) (u v : Nat) : Graph :=
  { adj_list := adjInsert (adjInsert g.adj_list u v) v u,
    num_nodes := g.num_nodes,
    num_edges := g.num_edges + 1 }

/-- The `collect::<Vec<usize>>()` of the parsed tokens of one line:
`none` models the panic of `x.parse::<usize>().unwrap()` on the first
token that is not a non-negative integer. -/
def collectTokens : List (Option Nat) → Option (List Nat)
  | [] => some []
  | none :: _ => none
  | some n :: rest => (collectTokens rest).map (n :: ·)

/-- Parsing of one tokenised line, as the Rust iterator chain performs it:
collecting panics (`none`) as soon as any token fails to parse; otherwise
the parsed vector is returned and the `parts.len() != 2` check decides
whether the line is kept (`some (some (u, v))`) or silently skipped
(`some none`). -/
def parseLine (toks : List (Option Nat)) : Option (Option (Nat × Nat)) :=
  match collectTokens toks with
  | none => none
  | some parts =>
      if parts.length = 2 then some (some (parts.headI, parts.tail.headI))
      else some none

/-- A line carrying exactly two integer tokens (the ones `load_from_file`
turns into an edge). -/
def goodLine (toks : List (Option Nat)) : Bool :=
  match collectTokens toks with
  | some parts => parts.length == 2
  | none => false

/-- The per-line body of the loop in `load_from_file`. -/
def processLine (g : Graph) (toks : List (Option Nat)) : Option Graph :=
  match parseLine toks with
  | none => none
  | some none => some g
  | some (some (u, v)) => some (addEdge g u v)

/-- The loop of `load_from_file` over the (tokenised) lines of the file. -/
def loadAux : Graph → List (List (Option Nat)) → Option Graph
  | g, [] => some g
  | g, l :: rest =>
      match processLine g l with
      | none => none
      | some g' => loadAux g' rest

/-- `Graph::load_from_file`, starting from `Graph::new()` and finally
setting `num_nodes` to the number of keys of the adjacency map.
`none` models a panic while reading the file. -/
def load_from_file (lines : List (List (Option Nat))) : Option Graph :=
  (loadAux Graph.new lines).map
    (fun g => { g with num_nodes := g.adj_list.length })

/-! ### BFS (`bfs_distances` in `analysis.rs`) -/

/-- `distance` map lookup (`HashMap<usize, usize>` as an association list,
most recent insertion first). -/
def lookupD (m : List (Nat × Nat)) (k : Nat) : Option Nat :=
  (m.find? (fun p => p.1 == k)).map (·.2)

/-- Total read of the distance map (only used where the key is provably
present). -/
def dval (m : List (Nat × Nat)) (k : Nat) : Nat := (lookupD m k).getD 0

/-- The inner `for &neighbor in neighbors` loop of `bfs_distances`:
every not-yet-visited neighbour is marked visited, is given distance
`d + 1` and is pushed at the back of the queue. -/
def pushNeighbors (d : Nat) : List Nat → List Nat → List (Nat × Nat) → List Nat →
    List Nat × List (Nat × Nat) × List Nat
  | [], v, dist, q => (v, dist, q)
  | n :: ns, v, dist, q =>
      if n ∈ v then pushNeighbors d ns v dist q
      else pushNeighbors d ns (n :: v) ((n, d + 1) :: dist) (q ++ [n])

/-- All node names occurring anywhere in the adjacency map (keys and
neighbour lists); every node BFS can ever visit lies in this list. -/
def univList (g : Graph) : List Nat := keys g ++ (g.adj_list.map (·.2)).flatten

/-- Number of occurrences in `univList g` of nodes not yet visited; the
first component of the BFS termination measure. -/
def unvisitedCount (g : Graph) (v : List Nat) : Nat :=
  ((univList g).filter (fun x => decide (x ∉ v))).length

theorem mem_pushNeighbors_self (d : Nat) :
    ∀ (ns v : List Nat) (dist : List (Nat × Nat)) (q : List Nat) (x : Nat),
      x ∈ v → x ∈ (pushNeighbors d ns v dist q).1
  | [], _, _, _, _, hx => hx
  | n :: ns, v, dist, q, x, hx => by
      unfold pushNeighbors
      by_cases hn : n ∈ v
      · simpa [hn] using mem_pushNeighbors_self d ns v dist q x hx
      · simpa [hn] using
          mem_pushNeighbors_self d ns (n :: v) ((n, d + 1) :: dist) (q ++ [n]) x
            (List.mem_cons_of_mem _ hx)

theorem pushNeighbors_progress (d : Nat) :
    ∀ (ns v : List Nat) (dist : List (Nat × Nat)) (q : List Nat),
      pushNeighbors d ns v dist q = (v, dist, q) ∨
        ∃ n, n ∈ ns ∧ n ∈ (pushNeighbors d ns v dist q).1 ∧ n ∉ v
  | [], v, dist, q => Or.inl rfl
  | n :: ns, v, dist, q => by
      unfold pushNeighbors
      by_cases hn : n ∈ v
      · simp only [hn, if_true]
        rcases pushNeighbors_progress d ns v dist q with h | ⟨m, hm, hm2, hm3⟩
        · exact Or.inl h
        · exact Or.inr ⟨m, List.mem_cons_of_mem _ hm, hm2, hm3⟩
      · simp only [hn, if_false]
        refine Or.inr ⟨n, List.mem_cons_self _ _, ?_, hn⟩
        exact mem_pushNeighbors_self d ns (n :: v) ((n, d + 1) :: dist) (q ++ [n]) n
          (List.mem_cons_self _ _)

theorem filter_not_mem_length_le (l : List Nat) (v v' : List Nat)
    (hsub : ∀ x, x ∈ v → x ∈ v') :
    (l.filter (fun x => decide (x ∉ v'))).length ≤
      (l.filter (fun x => decide (x ∉ v))).length := by
  refine List.Sublist.length_le (List.monotone_filter_right l ?_)
  intro a ha
  simp only [decide_eq_true_eq] at ha ⊢
  exact fun h => ha (hsub a h)

theorem filter_not_mem_length_lt (l : List Nat) (v v' : List Nat)
    (hsub : ∀ x, x ∈ v → x ∈ v') (n : Nat) (hnl : n ∈ l) (hn' : n ∈ v') (hn : n ∉ v) :
    (l.filter (fun x => decide (x ∉ v'))).length <
      (l.filter (fun x => decide (x ∉ v))).length := by
  rcases List.append_of_mem hnl with ⟨s, t, rfl⟩
  have h1 := filter_not_mem_length_le s v v' hsub
  have h2 := filter_not_mem_length_le t v v' hsub
  simp only [List.filter_append, List.filter_cons, List.length_append]
  simp [hn', hn] at h1 h2 ⊢
  omega

theorem mem_univList_of_getAdj {g : Graph} {c : Nat} {ns : List Nat}
    (h : getAdj g c = some ns) {n : Nat} (hn : n ∈ ns) : n ∈ univList g := by
  unfold getAdj at h
  rcases Option.map_eq_some'.mp h with ⟨p, hp, hp2⟩
  have hpmem : p ∈ g.adj_list := List.mem_of_find?_eq_some hp
  unfold univList
  refine List.mem_append.mpr (Or.inr ?_)
  refine List.mem_flatten.mpr ⟨p.2, ?_, hp2 ▸ hn⟩
  exact List.mem_map_of_mem (·.2) hpmem

/-- `bfs_distances` main loop. `none` models the panic that the indexing
`distance[&current]` would raise on a missing key (it never fires, see the
invariant proofs below). -/
def bfsAux (g : Graph) (v : List Nat) (dist : List (Nat × Nat)) (q : List Nat) :
    Option (List (Nat × Nat)) :=
  match q with
  | [] => some dist
  | current :: rest =>
      match lookupD dist current with
      | none => none
      | some d =>
          match hadj : getAdj g current with
          | none => bfsAux g v dist rest
          | some ns =>
              match hp : pushNeighbors d ns v dist rest with
              | (v', dist', q') => bfsAux g v' dist' q'
termination_by (unvisitedCount g v, q.length)
decreasing_by
· apply Prod.Lex.right
  simp
· rcases pushNeighbors_progress d ns v dist rest with heq | ⟨n, hn1, hn2, hn3⟩
  · rw [hp] at heq
    obtain ⟨rfl, rfl, rfl⟩ : v' = v ∧ dist' = dist ∧ q' = rest := by
      injection heq with h1 h23
      injection h23 with h2 h3
      exact ⟨h1, h2, h3⟩
    apply Prod.Lex.right
    simp
  · rw [hp] at hn2
    apply Prod.Lex.left
    exact filter_not_mem_length_lt (univList g) v v'
      (fun x hx => by
        have := mem_pushNeighbors_self d ns v dist rest x hx
        rwa [hp] at this)
      n (mem_univList_of_getAdj hadj hn1) hn2 hn3

/-- `bfs_distances(graph, start)`: runs the loop from the singleton state
`visited = {start}`, `distance = {start ↦ 0}`, `queue = [start]`. The
`getD` default is never used (the loop is proved to return `some _`). -/
def bfs_distances (g : Graph) (start : Nat) : List (Nat × Nat) :=
  (bfsAux g [start] [(start, 0)] [start]).getD [(start, 0)]

/-! ### The remaining analysis functions, with `f64` modelled by `ℚ`. -/

/-- `average_distance`: the double accumulation loop; `acc.1` is
`total_distance`, `acc.2` is `count`, both incremented only for strictly
positive distances; final guarded division. -/
def average_distance (g : Graph) : ℚ :=
  let acc : Nat × Nat := (keys g).foldl
    (fun acc start =>
      ((bfs_distances g start).map (·.2)).foldl
        (fun (a : Nat × Nat) d => if 0 < d then (a.1 + d, a.2 + 1) else a) acc)
    (0, 0)
  if acc.2 = 0 then 0 else (acc.1 : ℚ) / (acc.2 : ℚ)

/-- The closeness value computed in the body of the `closeness_centrality`
loop: `(dist.len() - 1) / sum` when the distance sum is positive, `0.0`
otherwise. -/
def closenessVal (g : Graph) (node : Nat) : ℚ :=
  let dist := bfs_distances g node
  let sum : Nat := (dist.map (·.2)).sum
  if 0 < sum then ((dist.length - 1 : Nat) : ℚ) / (sum : ℚ) else 0

/-- `closeness_centrality`: one `(node, closeness)` entry per key, then
`sort_by(|a, b| b.1.partial_cmp(&a.1).unwrap())`, i.e. a stable sort into
non-increasing closeness order. -/
def closeness_centrality (g : Graph) : List (Nat × ℚ) :=
  List.mergeSort ((keys g).map (fun node => (node, closenessVal g node)))
    (fun a b => decide (b.2 ≤ a.2))

/-- Guarded `usize` subtraction: `none` models the overflow panic of
`a - b` when `b > a`. -/
def checkedSub (a b : Nat) : Option Nat := if b ≤ a then some (a - b) else none

/-- The closeness body with the single fallible operation
`(dist.len() - 1)` made explicit through `checkedSub`. -/
def closenessValChecked (g : Graph) (node : Nat) : Option ℚ :=
  let dist := bfs_distances g node
  let sum : Nat := (dist.map (·.2)).sum
  if 0 < sum then (checkedSub dist.length 1).map (fun m => (m : ℚ) / (sum : ℚ))
  else some 0

/-- `closeness_centrality` with its fallible subtraction made explicit;
used to state that the function never faults. -/
def closeness_centralityChecked (g : Graph) : Option (List (Nat × ℚ)) :=
  ((keys g).mapM (fun node => (closenessValChecked g node).map (fun c => (node, c)))).map
    (fun res => List.mergeSort res (fun a b => decide (b.2 ≤ a.2)))

/-- `jaccard_similarity(graph, u, v)`: `|S(u) ∩ S(v)| / |S(u) ∪ S(v)|`
on the two neighbour sets, `0.0` when either node is absent or the union
is empty.  The intersection iterator yields the members of `set1` lying in
`set2`; the union iterator yields `set1` followed by the members of `set2`
outside `set1`. -/
def jaccard_similarity (g : Graph) (u v : Nat) : ℚ :=
  match getAdj g u, getAdj g v with
  | some set1, some set2 =>
      let inter := (set1.filter (fun x => decide (x ∈ set2))).length
      let uni := (set1 ++ set2.filter (fun x => decide (x ∉ set1))).length
      if uni = 0 then 0 else (inter : ℚ) / (uni : ℚ)
  | _, _ => 0

/-- Enumeration of the unordered pairs `i < j` over a node ordering, as
the double index loop of `most_similar_pairs` produces them. -/
def allPairs : List Nat → List (Nat × Nat)
  | [] => []
  | x :: xs => xs.map (fun y => (x, y)) ++ allPairs xs

/-- The `map_or(true, |n| n.len() <= 1)` skip test, positively: the node
is present and has at least two neighbours. -/
def degOk (g : Graph) (u : Nat) : Bool :=
  match getAdj g u with
  | none => false
  | some l => 1 < l.length

/-- The body of the double loop of `most_similar_pairs`: skip the pair
when either neighbour set is missing or has at most one member, compute
the similarity, keep it only when strictly positive. -/
def msFilter (g : Graph) (p : Nat × Nat) : Option ((Nat × Nat) × ℚ) :=
  if degOk g p.1 && degOk g p.2 then
    if 0 < jaccard_similarity g p.1 p.2 then some (p, jaccard_similarity g p.1 p.2)
    else none
  else none

/-- `most_similar_pairs(graph, top_n)`: filter the pairs, keep positive
similarities, sort non-increasing by similarity (stable), truncate. -/
def most_similar_pairs (g : Graph) (top_n : Nat) : List ((Nat × Nat) × ℚ) :=
  (List.mergeSort ((allPairs (keys g)).filterMap (msFilter g))
    (fun a b => decide (b.2 ≤ a.2))).take top_n

/-- Reachability in exactly `n` directed steps along recorded neighbour
entries, starting from `s`; the specification-side notion of a path of
length `n` from `s`. -/
inductive ReachN (g : Graph) (s : Nat) : Nat → Nat → Prop
  | refl : ReachN g s s 0
  | step {u v n} : ReachN g s u n → adjMem g u v → ReachN g s v (n + 1)

/-- One undirected edge: either endpoint records the other. -/
def symEdge (g : Graph) (u v : Nat) : Prop := adjMem g u v ∨ adjMem g v u

/-- Reachability by an undirected path of length `n` from `s`. -/
inductive UReachN (g : Graph) (s : Nat) : Nat → Nat → Prop
  | refl : UReachN g s s 0
  | step {u v n} : UReachN g s u n → symEdge g u v → UReachN g s v (n + 1)

/-! ### Basic lemmas about the association-list maps. -/

theorem lookupD_cons (k e : Nat) (m : List (Nat × Nat)) (x : Nat) :
    lookupD ((k, e) :: m) x = if k = x then some e else lookupD m x := by
  rcases eq_or_ne k x with rfl | h
  · simp only [lookupD, if_pos rfl]
    rw [List.find?_cons_of_pos]
    · rfl
    · simp
  · simp only [lookupD, if_neg h]
    rw [List.find?_cons_of_neg]
    simpa using h

theorem lookupD_isSome_iff (m : List (Nat × Nat)) (x : Nat) :
    (lookupD m x).isSome ↔ x ∈ m.map (·.1) := by
  induction m with
  | nil => simp [lookupD]
  | cons p m ih =>
      rcases p with ⟨k, e⟩
      rw [lookupD_cons]
      rcases eq_or_ne k x with rfl | h
      · simp
      · simp only [if_neg h, List.map_cons, List.mem_cons, ih]
        constructor
        · exact Or.inr
        · rintro (h2 | h2)
          · exact absurd h2.symm h
          · exact h2

theorem dval_eq_of_lookupD {m : List (Nat × Nat)} {x e : Nat}
    (h : lookupD m x = some e) : dval m x = e := by
  simp [dval, h]

theorem adjMem_of_getAdj {g : Graph} {u : Nat} {ns : List Nat}
    (h : getAdj g u = some ns) {n : Nat} (hn : n ∈ ns) : adjMem g u n := by
  simp [adjMem, nbrs, h, hn]

theorem nbrs_eq_of_getAdj {g : Graph} {u : Nat} {ns : List Nat}
    (h : getAdj g u = some ns) : nbrs g u = ns := by simp [nbrs, h]

theorem nbrs_eq_nil_of_getAdj {g : Graph} {u : Nat}
    (h : getAdj g u = none) : nbrs g u = [] := by simp [nbrs, h]

/-! ### The BFS loop invariant. -/

/-- Invariant of the state of the inner neighbour-pushing loop while the
node with recorded distance `D` is being processed. -/
structure PreInv (g : Graph) (s D : Nat) (v : List Nat) (dist : List (Nat × Nat))
    (q : List Nat) : Prop where
  vnd : v.Nodup
  dnd : (dist.map (·.1)).Nodup
  qnd : q.Nodup
  qsub : ∀ x ∈ q, x ∈ v
  dkeys : ∀ x, x ∈ v ↔ (lookupD dist x).isSome
  sound : ∀ x dx, lookupD dist x = some dx → ReachN g s x dx
  szero : lookupD dist s = some 0
  sorted : q.Pairwise (fun a b => dval dist a ≤ dval dist b)
  lower : ∀ b ∈ q, D ≤ dval dist b
  upper : ∀ b ∈ q, dval dist b ≤ D + 1
  allv : ∀ x ∈ v, dval dist x ≤ D + 1

theorem push_spec (g : Graph) (s D : Nat) :
    ∀ (ns v : List Nat) (dist : List (Nat × Nat)) (q : List Nat),
      PreInv g s D v dist q →
      (∀ n ∈ ns, ReachN g s n (D + 1)) →
      PreInv g s D (pushNeighbors D ns v dist q).1 (pushNeighbors D ns v dist q).2.1
          (pushNeighbors D ns v dist q).2.2 ∧
        (∀ x ∈ v, x ∈ (pushNeighbors D ns v dist q).1) ∧
        (∀ x ∈ v, lookupD (pushNeighbors D ns v dist q).2.1 x = lookupD dist x) ∧
        (∀ x, x ∈ (pushNeighbors D ns v dist q).1 → x ∉ v →
          x ∈ (pushNeighbors D ns v dist q).2.2 ∧
            lookupD (pushNeighbors D ns v dist q).2.1 x = some (D + 1)) ∧
        (∃ ext, (pushNeighbors D ns v dist q).2.2 = q ++ ext) ∧
        (∀ n ∈ ns, n ∈ (pushNeighbors D ns v dist q).1)
  | [], v, dist, q, hI, _ =>
      ⟨hI, fun _ hx => hx, fun _ _ => rfl, fun x hx hx2 => absurd hx hx2,
        ⟨[], (List.append_nil q).symm⟩, fun n hn => absurd hn (List.not_mem_nil n)⟩
  | n :: ns, v, dist, q, hI, hns => by
      by_cases hn : n ∈ v
      · have hstep : pushNeighbors D (n :: ns) v dist q = pushNeighbors D ns v dist q := by
          simp [pushNeighbors, hn]
        have hrec := push_spec g s D ns v dist q hI
          (fun m hm => hns m (List.mem_cons_of_mem _ hm))
        rw [hstep]
        refine ⟨hrec.1, hrec.2.1, hrec.2.2.1, hrec.2.2.2.1, hrec.2.2.2.2.1, ?_⟩
        intro m hm
        rcases List.mem_cons.mp hm with rfl | hm2
        · exact hrec.2.1 m hn
        · exact hrec.2.2.2.2.2 m hm2
      · have hstep : pushNeighbors D (n :: ns) v dist q
            = pushNeighbors D ns (n :: v) ((n, D + 1) :: dist) (q ++ [n]) := by
          simp [pushNeighbors, hn]
        have hsv : s ∈ v := (hI.dkeys s).mpr (by simp [hI.szero])
        have hsn : s ≠ n := fun h => hn (h ▸ hsv)
        have hnq : n ∉ q := fun h => hn (hI.qsub n h)
        have hkeys : ∀ x, x ∈ dist.map (·.1) ↔ x ∈ v := by
          intro x; rw [← lookupD_isSome_iff]; exact (hI.dkeys x).symm
        have hlook : ∀ x, x ≠ n → lookupD ((n, D + 1) :: dist) x = lookupD dist x := by
          intro x hx
          rw [lookupD_cons]
          rw [if_neg (fun h => hx h.symm)]
        have hdval : ∀ x, x ≠ n → dval ((n, D + 1) :: dist) x = dval dist x := by
          intro x hx; simp [dval, hlook x hx]
        have hdvn : dval ((n, D + 1) :: dist) n = D + 1 := by
          simp [dval, lookupD_cons]
        have hdvq : ∀ x ∈ q, dval ((n, D + 1) :: dist) x = dval dist x := by
          intro x hx; exact hdval x (fun h => hn (h ▸ hI.qsub x hx))
        have hvne : ∀ x ∈ v, x ≠ n := fun x hx h => hn (h ▸ hx)
        have hI1 : PreInv g s D (n :: v) ((n, D + 1) :: dist) (q ++ [n]) := by
          refine ⟨?_, ?_, ?_, ?_, ?_, ?_, ?_, ?_, ?_, ?_, ?_⟩
          · exact List.Nodup.cons hn hI.vnd
          · simp only [List.map_cons]
            exact List.Nodup.cons (fun h => hn ((hkeys n).mp h)) hI.dnd
          · rw [List.nodup_append]
            refine ⟨hI.qnd, List.nodup_singleton n, ?_⟩
            intro x hx hx2
            rw [List.mem_singleton] at hx2
            subst hx2
            exact hnq hx
          · intro x hx
            rcases List.mem_append.mp hx with hx | hx
            · exact List.mem_cons_of_mem _ (hI.qsub x hx)
            · rw [List.mem_singleton] at hx
              subst hx
              exact List.mem_cons_self _ _
          · intro x
            rcases eq_or_ne x n with rfl | hx
            · simp [lookupD_cons]
            · rw [hlook x hx]
              constructor
              · intro h
                rcases List.mem_cons.mp h with h2 | h2
                · exact absurd h2 hx
                · exact (hI.dkeys x).mp h2
              · intro h
                exact List.mem_cons_of_mem _ ((hI.dkeys x).mpr h)
          · intro x dx h
            rcases eq_or_ne x n with rfl | hx
            · rw [lookupD_cons, if_pos rfl] at h
              obtain rfl : D + 1 = dx := by injection h
              exact hns x (List.mem_cons_self _ _)
            · exact hI.sound x dx (hlook x hx ▸ h)
          · rw [hlook s hsn]; exact hI.szero
          · rw [List.pairwise_append]
            refine ⟨hI.sorted.imp_of_mem ?_, List.pairwise_singleton _ _, ?_⟩
            · intro a b ha hb hab
              rw [hdvq a ha, hdvq b hb]; exact hab
            · intro a ha b hb
              rw [List.mem_singleton] at hb
              subst hb
              rw [hdvq a ha, hdvn]
              exact hI.upper a ha
          · intro b hb
            rcases List.mem_append.mp hb with hb | hb
            · rw [hdvq b hb]; exact hI.lower b hb
            · rw [List.mem_singleton] at hb
              subst hb
              rw [hdvn]
              omega
          · intro b hb
            rcases List.mem_append.mp hb with hb | hb
            · rw [hdvq b hb]; exact hI.upper b hb
            · rw [List.mem_singleton] at hb
              subst hb
              rw [hdvn]
          · intro x hx
            rcases List.mem_cons.mp hx with rfl | hx
            · rw [hdvn]
            · rw [hdval x (hvne x hx)]; exact hI.allv x hx
        have hrec := push_spec g s D ns (n :: v) ((n, D + 1) :: dist) (q ++ [n]) hI1
          (fun m hm => hns m (List.mem_cons_of_mem _ hm))
        rw [hstep]
        refine ⟨hrec.1, ?_, ?_, ?_, ?_, ?_⟩
        · intro x hx; exact hrec.2.1 x (List.mem_cons_of_mem _ hx)
        · intro x hx
          rw [hrec.2.2.1 x (List.mem_cons_of_mem _ hx), hlook x (hvne x hx)]
        · intro x hx hx2
          rcases eq_or_ne x n with rfl | hxn
          · constructor
            · rcases hrec.2.2.2.2.1 with ⟨ext, hext⟩
              rw [hext]
              refine List.mem_append.mpr (Or.inl ?_)
              exact List.mem_append.mpr (Or.inr (List.mem_singleton.mpr rfl))
            · rw [hrec.2.2.1 x (List.mem_cons_self _ _), lookupD_cons, if_pos rfl]
          · have hx3 : x ∉ n :: v := by
              intro h
              rcases List.mem_cons.mp h with h2 | h2
              · exact hxn h2
              · exact hx2 h2
            exact hrec.2.2.2.1 x hx hx3
        · rcases hrec.2.2.2.2.1 with ⟨ext, hext⟩
          exact ⟨[n] ++ ext, by rw [hext, List.append_assoc]⟩
        · intro m hm
          rcases List.mem_cons.mp hm with rfl | hm2
          · exact hrec.2.1 m (List.mem_cons_self _ _)
          · exact hrec.2.2.2.2.2 m hm2

theorem bfsAux_nil (g : Graph) (v : List Nat) (dist : List (Nat × Nat)) :
    bfsAux g v dist [] = some dist := by
  rw [bfsAux]

theorem bfsAux_cons_none (g : Graph) (v : List Nat) (dist : List (Nat × Nat)) (c : Nat)
    (rest : List Nat) (d : Nat) (hlk : lookupD dist c = some d)
    (hadj : getAdj g c = none) :
    bfsAux g v dist (c :: rest) = bfsAux g v dist rest := by
  rw [bfsAux]
  simp only [hlk]
  split <;> simp_all

theorem bfsAux_cons_some (g : Graph) (v : List Nat) (dist : List (Nat × Nat)) (c : Nat)
    (rest : List Nat) (d : Nat) (ns : List Nat) (v' : List Nat) (dist' : List (Nat × Nat))
    (q' : List Nat) (hlk : lookupD dist c = some d) (hadj : getAdj g c = some ns)
    (hp : pushNeighbors d ns v dist rest = (v', dist', q')) :
    bfsAux g v dist (c :: rest) = bfsAux g v' dist' q' := by
  rw [bfsAux]
  simp only [hlk]
  split <;> simp_all

/-- The invariant holding whenever the BFS outer loop tests its queue. -/
structure BfsInv (g : Graph) (s : Nat) (v : List Nat) (dist : List (Nat × Nat))
    (q : List Nat) : Prop where
  vnd : v.Nodup
  dnd : (dist.map (·.1)).Nodup
  qnd : q.Nodup
  qsub : ∀ x ∈ q, x ∈ v
  dkeys : ∀ x, x ∈ v ↔ (lookupD dist x).isSome
  sound : ∀ x dx, lookupD dist x = some dx → ReachN g s x dx
  szero : lookupD dist s = some 0
  sorted : q.Pairwise (fun a b => dval dist a ≤ dval dist b)
  width : ∀ a ∈ q, ∀ b ∈ q, dval dist a ≤ dval dist b + 1
  procle : ∀ w ∈ v, w ∉ q → ∀ b ∈ q, dval dist w ≤ dval dist b
  procadj : ∀ w ∈ v, w ∉ q → ∀ x, adjMem g w x → x ∈ v ∧ dval dist x ≤ dval dist w + 1

/-- What holds of the returned distance map when the queue runs empty. -/
structure BfsFinal (g : Graph) (s : Nat) (res : List (Nat × Nat)) : Prop where
  keysnd : (res.map (·.1)).Nodup
  sound : ∀ x dx, lookupD res x = some dx → ReachN g s x dx
  szero : lookupD res s = some 0
  closure : ∀ u du, lookupD res u = some du → ∀ x, adjMem g u x →
      ∃ dx, lookupD res x = some dx ∧ dx ≤ du + 1

theorem bfsAux_post (g : Graph) (s : Nat) (v : List Nat) (dist : List (Nat × Nat))
    (q : List Nat) :
    BfsInv g s v dist q → ∃ res, bfsAux g v dist q = some res ∧ BfsFinal g s res := by
  refine bfsAux.induct g
    (fun v dist q => BfsInv g s v dist q → ∃ res, bfsAux g v dist q = some res ∧ BfsFinal g s res)
    ?_ ?_ ?_ ?_ v dist q
  · -- empty queue: return the map
    intro v dist hInv
    refine ⟨dist, bfsAux_nil g v dist, hInv.dnd, hInv.sound, hInv.szero, ?_⟩
    intro u du hu x hx
    have huv : u ∈ v := (hInv.dkeys u).mpr (by simp [hu])
    obtain ⟨hxv, hle⟩ := hInv.procadj u huv (List.not_mem_nil u) x hx
    obtain ⟨dx, hdx⟩ := Option.isSome_iff_exists.mp ((hInv.dkeys x).mp hxv)
    refine ⟨dx, hdx, ?_⟩
    have e1 : dval dist x = dx := dval_eq_of_lookupD hdx
    have e2 : dval dist u = du := dval_eq_of_lookupD hu
    omega
  · -- the indexing distance[&current] cannot fault: current is visited
    intro v dist current rest hlk hInv
    have := (hInv.dkeys current).mp (hInv.qsub current (List.mem_cons_self _ _))
    rw [hlk] at this
    exact absurd this (by simp)
  · -- current has no adjacency entry: just drop it from the queue
    intro v dist current rest d hlk hadj ih hInv
    have hdc : dval dist current = d := dval_eq_of_lookupD hlk
    have hInv2 : BfsInv g s v dist rest := by
      refine ⟨hInv.vnd, hInv.dnd, (List.nodup_cons.mp hInv.qnd).2,
        fun x hx => hInv.qsub x (List.mem_cons_of_mem _ hx), hInv.dkeys, hInv.sound,
        hInv.szero, hInv.sorted.of_cons, ?_, ?_, ?_⟩
      · intro a ha b hb
        exact hInv.width a (List.mem_cons_of_mem _ ha) b (List.mem_cons_of_mem _ hb)
      · intro w hw hwq b hb
        rcases eq_or_ne w current with rfl | hwc
        · exact List.rel_of_pairwise_cons hInv.sorted hb
        · have hwq0 : w ∉ current :: rest := by
            intro h
            rcases List.mem_cons.mp h with h2 | h2
            · exact hwc h2
            · exact hwq h2
          exact hInv.procle w hw hwq0 b (List.mem_cons_of_mem _ hb)
      · intro w hw hwq x hx
        rcases eq_or_ne w current with rfl | hwc
        · rw [adjMem, nbrs_eq_nil_of_getAdj hadj] at hx
          exact absurd hx (List.not_mem_nil x)
        · have hwq0 : w ∉ current :: rest := by
            intro h
            rcases List.mem_cons.mp h with h2 | h2
            · exact hwc h2
            · exact hwq h2
          exact hInv.procadj w hw hwq0 x hx
    obtain ⟨res, h1, h2⟩ := ih hInv2
    exact ⟨res, (bfsAux_cons_none g v dist current rest d hlk hadj).trans h1, h2⟩
  · -- current has neighbours: push the fresh ones, keep the invariant
    intro v dist current rest d hlk ns hadj v' dist' q' hp ih hInv
    have hdc : dval dist current = d := dval_eq_of_lookupD hlk
    have hcv : current ∈ v := hInv.qsub current (List.mem_cons_self _ _)
    have hcrest : current ∉ rest := (List.nodup_cons.mp hInv.qnd).1
    have pre : PreInv g s d v dist rest := by
      refine ⟨hInv.vnd, hInv.dnd, (List.nodup_cons.mp hInv.qnd).2,
        fun x hx => hInv.qsub x (List.mem_cons_of_mem _ hx), hInv.dkeys, hInv.sound,
        hInv.szero, hInv.sorted.of_cons, ?_, ?_, ?_⟩
      · intro b hb
        have := List.rel_of_pairwise_cons hInv.sorted hb
        omega
      · intro b hb
        have := hInv.width b (List.mem_cons_of_mem _ hb) current (List.mem_cons_self _ _)
        omega
      · intro x hx
        by_cases hxq : x ∈ current :: rest
        · have := hInv.width x hxq current (List.mem_cons_self _ _)
          omega
        · have := hInv.procle x hx hxq current (List.mem_cons_self _ _)
          omega
    have hns : ∀ n ∈ ns, ReachN g s n (d + 1) :=
      fun n hnn => (hInv.sound current d hlk).step (adjMem_of_getAdj hadj hnn)
    have hps := push_spec g s d ns v dist rest pre hns
    rw [hp] at hps
    obtain ⟨pre', hsub, hpres, hnew, ⟨ext, hext⟩, hcov⟩ := hps
    have hqext : q' = rest ++ ext := hext
    have hInv2 : BfsInv g s v' dist' q' := by
      refine ⟨pre'.vnd, pre'.dnd, pre'.qnd, pre'.qsub, pre'.dkeys, pre'.sound,
        pre'.szero, pre'.sorted, ?_, ?_, ?_⟩
      · intro a ha b hb
        have h1 : dval dist' a ≤ d + 1 := pre'.upper a ha
        have h2 : d ≤ dval dist' b := pre'.lower b hb
        omega
      · intro w hw hwq b hb
        by_cases hwv : w ∈ v
        · have hdw : dval dist' w = dval dist w := by simp [dval, hpres w hwv]
          have hwrest : w ∉ rest := fun h => hwq (by
            rw [hqext]; exact List.mem_append.mpr (Or.inl h))
          have hwd : dval dist w ≤ d := by
            rcases eq_or_ne w current with rfl | hwc
            · omega
            · have hwq0 : w ∉ current :: rest := by
                intro h
                rcases List.mem_cons.mp h with h2 | h2
                · exact hwc h2
                · exact hwrest h2
              have := hInv.procle w hwv hwq0 current (List.mem_cons_self _ _)
              omega
          have hlb : d ≤ dval dist' b := pre'.lower b hb
          omega
        · obtain ⟨hq, _⟩ := hnew w hw hwv
          exact absurd hq hwq
      · intro w hw hwq x hx
        by_cases hwv : w ∈ v
        · rcases eq_or_ne w current with rfl | hwc
          · have hxns : x ∈ ns := by
              rw [adjMem, nbrs_eq_of_getAdj hadj] at hx
              exact hx
            have hxv2 : x ∈ v' := hcov x hxns
            have h1 : dval dist' x ≤ d + 1 := pre'.allv x hxv2
            have h2 : dval dist' w = d :=
              dval_eq_of_lookupD ((hpres w hwv).trans hlk)
            exact ⟨hxv2, by omega⟩
          · have hwq0 : w ∉ current :: rest := by
              intro h
              rcases List.mem_cons.mp h with h2 | h2
              · exact hwc h2
              · exact hwq (by rw [hqext]; exact List.mem_append.mpr (Or.inl h2))
            obtain ⟨hxv, hxle⟩ := hInv.procadj w hwv hwq0 x hx
            refine ⟨hsub x hxv, ?_⟩
            have e1 : dval dist' x = dval dist x := by simp [dval, hpres x hxv]
            have e2 : dval dist' w = dval dist w := by simp [dval, hpres w hwv]
            omega
        · obtain ⟨hq, _⟩ := hnew w hw hwv
          exact absurd hq hwq
    obtain ⟨res, h1, h2⟩ := ih hInv2
    exact ⟨res,
      (bfsAux_cons_some g v dist current rest d ns v' dist' q' hlk hadj hp).trans h1, h2⟩

theorem lookupD_nil (x : Nat) : lookupD [] x = none := rfl

theorem bfsInv_init (g : Graph) (s : Nat) : BfsInv g s [s] [(s, 0)] [s] := by
  refine ⟨List.nodup_singleton s, by simp, List.nodup_singleton s, fun x hx => hx,
    ?_, ?_, ?_, List.pairwise_singleton _ _, ?_, ?_, ?_⟩
  · intro x
    rw [List.mem_singleton, lookupD_cons]
    rcases eq_or_ne s x with rfl | h
    · simp
    · rw [if_neg h, lookupD_nil]
      constructor
      · intro h2
        exact absurd h2.symm h
      · intro h2
        exact absurd h2 (by simp)
  · intro x dx h
    rw [lookupD_cons] at h
    rcases eq_or_ne s x with rfl | h2
    · rw [if_pos rfl] at h
      obtain rfl : (0 : Nat) = dx := by injection h
      exact ReachN.refl
    · rw [if_neg h2, lookupD_nil] at h
      exact absurd h (by simp)
  · rw [lookupD_cons, if_pos rfl]
  · intro a ha b hb
    rw [List.mem_singleton] at ha hb
    subst ha
    subst hb
    omega
  · intro w hw hwq b hb
    rw [List.mem_singleton] at hw
    subst hw
    exact absurd (List.mem_singleton.mpr rfl) hwq
  · intro w hw hwq x hx
    rw [List.mem_singleton] at hw
    subst hw
    exact absurd (List.mem_singleton.mpr rfl) hwq

/-- The BFS loop always returns normally (no `none`), and
`bfs_distances` is its returned map. -/
theorem bfsAux_run (g : Graph) (s : Nat) :
    bfsAux g [s] [(s, 0)] [s] = some (bfs_distances g s) := by
  obtain ⟨res, h1, _⟩ := bfsAux_post g s [s] [(s, 0)] [s] (bfsInv_init g s)
  rw [h1, bfs_distances, h1]
  rfl

theorem bfs_final (g : Graph) (s : Nat) : BfsFinal g s (bfs_distances g s) := by
  obtain ⟨res, h1, h2⟩ := bfsAux_post g s [s] [(s, 0)] [s] (bfsInv_init g s)
  have he : bfs_distances g s = res := by rw [bfs_distances, h1]; rfl
  rwa [he]

theorem bfs_complete (g : Graph) (s : Nat) :
    ∀ x n, ReachN g s x n →
      ∃ dx, lookupD (bfs_distances g s) x = some dx ∧ dx ≤ n := by
  intro x n h
  induction h with
  | refl => exact ⟨0, (bfs_final g s).szero, Nat.le_refl 0⟩
  | step h hadj ih =>
      obtain ⟨du, hdu, hle⟩ := ih
      obtain ⟨dx, hdx, hle2⟩ := (bfs_final g s).closure _ du hdu _ hadj
      exact ⟨dx, hdx, by omega⟩

/-- Full characterisation of the BFS map: a node carries value `dx`
exactly when `dx` is the least number of steps from the start to it. -/
theorem bfs_characterization (g : Graph) (s x dx : Nat) :
    lookupD (bfs_distances g s) x = some dx ↔
      (ReachN g s x dx ∧ ∀ m, ReachN g s x m → dx ≤ m) := by
  constructor
  · intro h
    refine ⟨(bfs_final g s).sound x dx h, ?_⟩
    intro m hm
    obtain ⟨dx2, hdx2, hle⟩ := bfs_complete g s x m hm
    rw [h] at hdx2
    obtain rfl : dx = dx2 := by injection hdx2
    omega
  · rintro ⟨h1, h2⟩
    obtain ⟨dx2, hdx2, hle⟩ := bfs_complete g s x dx h1
    have h3 := (bfs_final g s).sound x dx2 hdx2
    have h4 := h2 dx2 h3
    obtain rfl : dx = dx2 := by omega
    exact hdx2

theorem adjMem_symm_of_isSymm {g : Graph} (h : isSymm g = true) {u v : Nat}
    (h2 : adjMem g u v) : adjMem g v u := by
  rw [adjMem, nbrs] at h2
  rcases hga : getAdj g u with _ | ns
  · rw [hga] at h2
    exact absurd h2 (List.not_mem_nil v)
  · rw [hga] at h2
    simp only [Option.getD_some] at h2
    rw [getAdj] at hga
    rcases Option.map_eq_some'.mp hga with ⟨p, hp, hp2⟩
    have hpmem : p ∈ g.adj_list := List.mem_of_find?_eq_some hp
    have hpu : p.1 = u := by simpa using List.find?_some hp
    have hall := List.all_eq_true.mp h p hpmem
    have hv := List.all_eq_true.mp hall v (hp2 ▸ h2)
    have := of_decide_eq_true hv
    rwa [hpu] at this

theorem reachN_iff_uReachN {g : Graph} (h : isSymm g = true) (s x n : Nat) :
    ReachN g s x n ↔ UReachN g s x n := by
  constructor
  · intro h2
    induction h2 with
    | refl => exact UReachN.refl
    | step h3 hadj ih => exact ih.step (Or.inl hadj)
  · intro h2
    induction h2 with
    | refl => exact ReachN.refl
    | step h3 hedge ih =>
        rcases hedge with hedge | hedge
        · exact ih.step hedge
        · exact ih.step (adjMem_symm_of_isSymm h hedge)

/-! ### Lemmas about graph construction. -/

theorem collectTokens_eq_none_iff (toks : List (Option Nat)) :
    collectTokens toks = none ↔ none ∈ toks := by
  induction toks with
  | nil => simp [collectTokens]
  | cons t rest ih =>
      rcases t with _ | n
      · simp [collectTokens]
      · simp only [collectTokens, List.mem_cons]
        rcases h : collectTokens rest with _ | parts
        · simp only [h, Option.map_none'] at ih ⊢
          simp
          exact ih.mp trivial
        · simp only [h, Option.map_some'] at ih ⊢
          simp only [reduceCtorEq, false_iff] at ih ⊢
          intro hc
          rcases hc with hc | hc
          · exact absurd hc (by simp)
          · exact ih hc

theorem collectTokens_length {toks : List (Option Nat)} {parts : List Nat}
    (h : collectTokens toks = some parts) : parts.length = toks.length := by
  induction toks generalizing parts with
  | nil =>
      simp only [collectTokens] at h
      obtain rfl : ([] : List Nat) = parts := by injection h
      rfl
  | cons t rest ih =>
      rcases t with _ | n
      · simp [collectTokens] at h
      · simp only [collectTokens] at h
        rcases h2 : collectTokens rest with _ | parts2
        · rw [h2] at h; simp at h
        · rw [h2] at h
          simp only [Option.map_some'] at h
          obtain rfl : n :: parts2 = parts := by injection h
          simp [ih h2]

theorem mem_insertNb (l : List Nat) (x a : Nat) :
    a ∈ insertNb l x ↔ a ∈ l ∨ a = x := by
  unfold insertNb
  by_cases h : x ∈ l
  · rw [if_pos h]
    constructor
    · exact Or.inl
    · rintro (h2 | rfl)
      · exact h2
      · exact h
  · rw [if_neg h]
    simp

/-- `getAdj` as a function of the raw association list. -/
def getL (l : List (Nat × List Nat)) (u : Nat) : Option (List Nat) :=
  (l.find? (fun p => p.1 == u)).map (·.2)

theorem getAdj_eq_getL (g : Graph) (u : Nat) : getAdj g u = getL g.adj_list u := rfl

theorem getL_adjInsert_self (l : List (Nat × List Nat)) (u v : Nat) :
    getL (adjInsert l u v) u = some (insertNb ((getL l u).getD []) v) := by
  induction l with
  | nil =>
      show getL [(u, [v])] u = _
      rw [getL, List.find?_cons_of_pos _ (by simp)]
      simp [getL, insertNb]
  | cons p rest ih =>
      by_cases hp : p.1 = u
      · rw [show adjInsert (p :: rest) u v = (p.1, insertNb p.2 v) :: rest by
          simp [adjInsert, hp]]
        have h1 : getL ((p.1, insertNb p.2 v) :: rest) u = some (insertNb p.2 v) := by
          rw [getL, List.find?_cons_of_pos _ (by simp [hp])]
          rfl
        have h2 : getL (p :: rest) u = some p.2 := by
          rw [getL, List.find?_cons_of_pos _ (by simp [hp])]
          rfl
        rw [h1, h2]
        rfl
      · rw [show adjInsert (p :: rest) u v = p :: adjInsert rest u v by
          simp [adjInsert, hp]]
        rw [getL, List.find?_cons_of_neg _ (by simp [hp])]
        rw [show getL (p :: rest) u = getL rest u by
          rw [getL, List.find?_cons_of_neg _ (by simp [hp])]
          rfl]
        exact ih

theorem getL_adjInsert_ne (l : List (Nat × List Nat)) (u v x : Nat) (hx : x ≠ u) :
    getL (adjInsert l u v) x = getL l x := by
  induction l with
  | nil =>
      show getL [(u, [v])] x = getL [] x
      rw [getL, List.find?_cons_of_neg _ (by simp; exact fun h => hx h.symm)]
      rfl
  | cons p rest ih =>
      by_cases hp : p.1 = u
      · rw [show adjInsert (p :: rest) u v = (p.1, insertNb p.2 v) :: rest by
          simp [adjInsert, hp]]
        rw [getL, List.find?_cons_of_neg _ (by simp [hp]; exact fun h => hx h.symm)]
        rw [show getL (p :: rest) x = getL rest x by
          rw [getL, List.find?_cons_of_neg _ (by simp [hp]; exact fun h => hx h.symm)]
          rfl]
        rfl
      · rw [show adjInsert (p :: rest) u v = p :: adjInsert rest u v by
          simp [adjInsert, hp]]
        by_cases hpx : p.1 = x
        · rw [getL, List.find?_cons_of_pos _ (by simp [hpx])]
          rw [getL, List.find?_cons_of_pos _ (by simp [hpx])]
        · rw [getL, List.find?_cons_of_neg _ (by simp [hpx])]
          rw [show getL (p :: rest) x = getL rest x by
            rw [getL, List.find?_cons_of_neg _ (by simp [hpx])]
            rfl]
          exact ih

theorem keys_adjInsert (l : List (Nat × List Nat)) (u v : Nat) :
    (adjInsert l u v).map (·.1)
      = if u ∈ l.map (·.1) then l.map (·.1) else l.map (·.1) ++ [u] := by
  induction l with
  | nil => simp [adjInsert]
  | cons p rest ih =>
      by_cases hp : p.1 = u
      · rw [show adjInsert (p :: rest) u v = (p.1, insertNb p.2 v) :: rest by
          simp [adjInsert, hp]]
        rw [if_pos (by simp [List.mem_cons, hp])]
        simp
      · rw [show adjInsert (p :: rest) u v = p :: adjInsert rest u v by
          simp [adjInsert, hp]]
        by_cases hu : u ∈ rest.map (·.1)
        · rw [if_pos (by rw [List.map_cons]; exact List.mem_cons_of_mem _ hu)]
          simp only [List.map_cons, ih, if_pos hu]
        · rw [if_neg (by
            simp only [List.map_cons, List.mem_cons]
            rintro (h | h)
            · exact hp h.symm
            · exact hu h)]
          simp only [List.map_cons, ih, if_neg hu, List.cons_append]

theorem nbrs_eq_getL (g : Graph) (u : Nat) : nbrs g u = (getL g.adj_list u).getD [] := rfl

theorem mem_nbrs_addEdge (g : Graph) (u v a b : Nat) :
    b ∈ nbrs (addEdge g u v) a ↔ b ∈ nbrs g a ∨ (a = u ∧ b = v) ∨ (a = v ∧ b = u) := by
  have hadj : (addEdge g u v).adj_list = adjInsert (adjInsert g.adj_list u v) v u := rfl
  rw [nbrs_eq_getL, hadj]
  by_cases hav : a = v
  · subst hav
    rw [getL_adjInsert_self]
    simp only [Option.getD_some, mem_insertNb]
    by_cases hau : a = u
    · subst hau
      rw [getL_adjInsert_self]
      simp only [Option.getD_some, mem_insertNb]
      rw [nbrs_eq_getL]
      tauto
    · rw [getL_adjInsert_ne _ _ _ _ hau]
      rw [nbrs_eq_getL]
      tauto
  · rw [getL_adjInsert_ne _ _ _ _ hav]
    by_cases hau : a = u
    · subst hau
      rw [getL_adjInsert_self]
      simp only [Option.getD_some, mem_insertNb]
      rw [nbrs_eq_getL]
      tauto
    · rw [getL_adjInsert_ne _ _ _ _ hau]
      rw [nbrs_eq_getL]
      tauto

/-- The symmetry invariant maintained by graph construction. -/
def SymmAdj (g : Graph) : Prop := ∀ u v, adjMem g u v → adjMem g v u

theorem symmAdj_new : SymmAdj Graph.new := by
  intro u v h
  simp [adjMem, nbrs, getAdj, Graph.new] at h

theorem symmAdj_addEdge {g : Graph} (h : SymmAdj g) (u v : Nat) :
    SymmAdj (addEdge g u v) := by
  intro a b hab
  rw [adjMem, mem_nbrs_addEdge] at hab ⊢
  rcases hab with hab | ⟨rfl, rfl⟩ | ⟨rfl, rfl⟩
  · exact Or.inl (h a b hab)
  · exact Or.inr (Or.inr ⟨rfl, rfl⟩)
  · exact Or.inr (Or.inl ⟨rfl, rfl⟩)

theorem keys_nodup_adjInsert {l : List (Nat × List Nat)} (h : (l.map (·.1)).Nodup)
    (u v : Nat) : ((adjInsert l u v).map (·.1)).Nodup := by
  rw [keys_adjInsert]
  by_cases hu : u ∈ l.map (·.1)
  · rwa [if_pos hu]
  · rw [if_neg hu, List.nodup_append]
    refine ⟨h, List.nodup_singleton u, ?_⟩
    intro x hx hx2
    rw [List.mem_singleton] at hx2
    subst hx2
    exact hu hx

theorem keys_nodup_addEdge {g : Graph} (h : (keys g).Nodup) (u v : Nat) :
    (keys (addEdge g u v)).Nodup :=
  keys_nodup_adjInsert (keys_nodup_adjInsert h u v) v u

/-- Case analysis of one line of the loading loop. -/
theorem processLine_cases (g : Graph) (toks : List (Option Nat)) :
    (processLine g toks = none ∧ goodLine toks = false ∧ collectTokens toks = none) ∨
    (processLine g toks = some g ∧ goodLine toks = false ∧
      ∃ parts, collectTokens toks = some parts ∧ parts.length ≠ 2) ∨
    (∃ u v, processLine g toks = some (addEdge g u v) ∧ goodLine toks = true) := by
  rcases hct : collectTokens toks with _ | parts
  · exact Or.inl ⟨by simp [processLine, parseLine, hct], by simp [goodLine, hct], rfl⟩
  · by_cases hlen : parts.length = 2
    · refine Or.inr (Or.inr ⟨parts.headI, parts.tail.headI, ?_, ?_⟩)
      · simp [processLine, parseLine, hct, hlen]
      · simp [goodLine, hct, hlen]
    · refine Or.inr (Or.inl ⟨?_, ?_, parts, rfl, hlen⟩)
      · simp [processLine, parseLine, hct, hlen]
      · simp [goodLine, hct, hlen]

theorem loadAux_cons (g : Graph) (l : List (Option Nat)) (rest : List (List (Option Nat))) :
    loadAux g (l :: rest)
      = match processLine g l with
        | none => none
        | some g' => loadAux g' rest := rfl

/-- Invariants carried through the whole loading loop: the edge counter
advances by the number of well-formed lines, the adjacency list and key
distinctness evolve as described, and symmetry is preserved. -/
theorem loadAux_invariants :
    ∀ (lines : List (List (Option Nat))) (g0 g1 : Graph),
      loadAux g0 lines = some g1 →
      g1.num_edges = g0.num_edges + (lines.filter goodLine).length ∧
        ((keys g0).Nodup → (keys g1).Nodup) ∧
        (SymmAdj g0 → SymmAdj g1)
  | [], g0, g1, h => by
      obtain rfl : g0 = g1 := by
        rw [loadAux] at h
        injection h
      simp
  | l :: rest, g0, g1, h => by
      rw [loadAux_cons] at h
      rcases processLine_cases g0 l with ⟨hpl, hgl, _⟩ | ⟨hpl, hgl, _⟩ | ⟨u, v, hpl, hgl⟩
      · rw [hpl] at h
        exact absurd h (by simp)
      · rw [hpl] at h
        obtain ⟨h1, h2, h3⟩ := loadAux_invariants rest g0 g1 h
        refine ⟨?_, h2, h3⟩
        rw [List.filter_cons, hgl]
        simpa using h1
      · rw [hpl] at h
        obtain ⟨h1, h2, h3⟩ := loadAux_invariants rest (addEdge g0 u v) g1 h
        refine ⟨?_, ?_, ?_⟩
        · rw [List.filter_cons, hgl]
          have he : (addEdge g0 u v).num_edges = g0.num_edges + 1 := rfl
          rw [h1, he]
          simp
          omega
        · intro hnd
          exact h2 (keys_nodup_addEdge hnd u v)
        · intro hs
          exact h3 (symmAdj_addEdge hs u v)

/-! ### Characterisations of the analysis functions. -/

/-- The strictly positive BFS distances collected over all start nodes, in
iteration order: the multiset `average_distance` sums and counts. -/
def posDists (g : Graph) : List Nat :=
  ((keys g).map
    (fun s => ((bfs_distances g s).map (·.2)).filter (fun d => decide (0 < d)))).flatten

theorem foldl_pos_acc (ds : List Nat) :
    ∀ a : Nat × Nat,
      ds.foldl (fun (a : Nat × Nat) d => if 0 < d then (a.1 + d, a.2 + 1) else a) a
        = (a.1 + (ds.filter (fun d => decide (0 < d))).sum,
           a.2 + (ds.filter (fun d => decide (0 < d))).length) := by
  induction ds with
  | nil => intro a; simp
  | cons d ds ih =>
      intro a
      by_cases hd : 0 < d
      · simp only [List.foldl_cons]
        rw [if_pos hd, ih]
        have hf : (d :: ds).filter (fun d => decide (0 < d))
            = d :: ds.filter (fun d => decide (0 < d)) := by
          simp [List.filter_cons, hd]
        rw [hf]
        simp only [List.sum_cons, List.length_cons]
        refine Prod.ext ?_ ?_ <;> simp <;> omega
      · simp only [List.foldl_cons]
        rw [if_neg hd, ih]
        have hf : (d :: ds).filter (fun d => decide (0 < d))
            = ds.filter (fun d => decide (0 < d)) := by
          simp [List.filter_cons, hd]
        rw [hf]

theorem foldl_avg (g : Graph) (ks : List Nat) :
    ∀ a : Nat × Nat,
      ks.foldl
        (fun acc start =>
          ((bfs_distances g start).map (·.2)).foldl
            (fun (a : Nat × Nat) d => if 0 < d then (a.1 + d, a.2 + 1) else a) acc) a
        = (a.1 + ((ks.map
              (fun s => ((bfs_distances g s).map (·.2)).filter (fun d => decide (0 < d)))).flatten).sum,
           a.2 + ((ks.map
              (fun s => ((bfs_distances g s).map (·.2)).filter (fun d => decide (0 < d)))).flatten).length) := by
  induction ks with
  | nil => intro a; simp
  | cons k ks ih =>
      intro a
      simp only [List.foldl_cons]
      rw [foldl_pos_acc, ih]
      simp only [List.map_cons, List.flatten_cons, List.sum_append, List.length_append]
      refine Prod.ext ?_ ?_ <;> simp <;> omega

/-- `average_distance` equals the sum of all strictly positive recorded
distances divided by their count, and `0` when there is none. -/
theorem average_distance_eq (g : Graph) :
    average_distance g
      = if (posDists g).length = 0 then 0
        else ((posDists g).sum : ℚ) / ((posDists g).length : ℚ) := by
  unfold average_distance posDists
  rw [foldl_avg g (keys g) (0, 0)]
  simp

theorem bfs_distances_ne_nil (g : Graph) (s : Nat) : bfs_distances g s ≠ [] := by
  intro h
  have h2 := (bfs_final g s).szero
  rw [h] at h2
  rw [lookupD_nil] at h2
  exact absurd h2 (by simp)

theorem one_le_length_bfs (g : Graph) (s : Nat) : 1 ≤ (bfs_distances g s).length :=
  List.length_pos.mpr (bfs_distances_ne_nil g s)

theorem closenessValChecked_eq (g : Graph) (node : Nat) :
    closenessValChecked g node = some (closenessVal g node) := by
  unfold closenessValChecked closenessVal
  by_cases hs : 0 < ((bfs_distances g node).map (·.2)).sum
  · simp only [if_pos hs]
    rw [show checkedSub (bfs_distances g node).length 1
        = some ((bfs_distances g node).length - 1) from
      if_pos (one_le_length_bfs g node)]
    rfl
  · simp only [if_neg hs]

theorem mapM_eq_some_map {α β : Type} (f : α → Option β) (h : α → β) :
    ∀ l : List α, (∀ a ∈ l, f a = some (h a)) → l.mapM f = some (l.map h) := by
  intro l
  induction l with
  | nil => intro _; rfl
  | cons a l ih =>
      intro hall
      rw [List.mapM_cons, hall a (List.mem_cons_self _ _),
        ih (fun b hb => hall b (List.mem_cons_of_mem _ hb))]
      rfl

/-- The checked closeness computation always succeeds and agrees with
`closeness_centrality`: the `dist.len() - 1` subtraction never underflows
(the map holds at least the start node). -/
theorem closeness_checked_eq (g : Graph) :
    closeness_centralityChecked g = some (closeness_centrality g) := by
  unfold closeness_centralityChecked closeness_centrality
  rw [mapM_eq_some_map _ (fun node => (node, closenessVal g node)) (keys g)
    (fun node _ => by rw [closenessValChecked_eq]; rfl)]
  rfl

/-! ### Lemmas for the Jaccard similarity and the pair enumeration. -/

theorem nodup_of_getAdj {g : Graph} (hWF : WF g) {u : Nat} {ns : List Nat}
    (h : getAdj g u = some ns) : ns.Nodup := by
  rw [getAdj] at h
  rcases Option.map_eq_some'.mp h with ⟨p, hp, hp2⟩
  have hpmem : p ∈ g.adj_list := List.mem_of_find?_eq_some hp
  exact hp2 ▸ hWF.2 p hpmem

theorem inter_length {s1 s2 : List Nat} (h1 : s1.Nodup) :
    (s1.filter (fun x => decide (x ∈ s2))).length = (s1.toFinset ∩ s2.toFinset).card := by
  have hnd : (s1.filter (fun x => decide (x ∈ s2))).Nodup := h1.filter _
  rw [← List.toFinset_card_of_nodup hnd]
  congr 1
  ext a
  simp [List.mem_filter, Finset.mem_inter, List.mem_toFinset]

theorem union_length {s1 s2 : List Nat} (h1 : s1.Nodup) (h2 : s2.Nodup) :
    (s1 ++ s2.filter (fun x => decide (x ∉ s1))).length
      = (s1.toFinset ∪ s2.toFinset).card := by
  have hnd : (s1 ++ s2.filter (fun x => decide (x ∉ s1))).Nodup := by
    rw [List.nodup_append]
    refine ⟨h1, h2.filter _, ?_⟩
    intro x hx hx2
    rw [List.mem_filter] at hx2
    exact (of_decide_eq_true hx2.2) hx
  rw [← List.toFinset_card_of_nodup hnd]
  congr 1
  ext a
  simp only [List.toFinset_append, Finset.mem_union, List.mem_toFinset,
    List.mem_filter, decide_eq_true_eq]
  tauto

theorem mem_allPairs : ∀ (l : List Nat) (p : Nat × Nat), p ∈ allPairs l → p.1 ∈ l ∧ p.2 ∈ l
  | [], p, h => absurd h (List.not_mem_nil p)
  | x :: xs, p, h => by
      rw [show allPairs (x :: xs) = xs.map (fun y => (x, y)) ++ allPairs xs from rfl] at h
      rcases List.mem_append.mp h with h | h
      · obtain ⟨y, hy, rfl⟩ := List.mem_map.mp h
        exact ⟨List.mem_cons_self _ _, List.mem_cons_of_mem _ hy⟩
      · obtain ⟨h1, h2⟩ := mem_allPairs xs p h
        exact ⟨List.mem_cons_of_mem _ h1, List.mem_cons_of_mem _ h2⟩

theorem allPairs_fst_ne_snd : ∀ (l : List Nat), l.Nodup → ∀ p ∈ allPairs l, p.1 ≠ p.2
  | [], _, p, h => absurd h (List.not_mem_nil p)
  | x :: xs, hnd, p, h => by
      have hx : x ∉ xs := (List.nodup_cons.mp hnd).1
      rw [show allPairs (x :: xs) = xs.map (fun y => (x, y)) ++ allPairs xs from rfl] at h
      rcases List.mem_append.mp h with h | h
      · obtain ⟨y, hy, rfl⟩ := List.mem_map.mp h
        intro h2
        simp only at h2
        exact hx (by rw [h2]; exact hy)
      · exact allPairs_fst_ne_snd xs (List.nodup_cons.mp hnd).2 p h

theorem allPairs_pairwise : ∀ (l : List Nat), l.Nodup →
    (allPairs l).Pairwise (fun p q : Nat × Nat => p ≠ q ∧ p ≠ (q.2, q.1))
  | [], _ => List.Pairwise.nil
  | x :: xs, hnd => by
      have hx : x ∉ xs := (List.nodup_cons.mp hnd).1
      have hxs : xs.Nodup := (List.nodup_cons.mp hnd).2
      rw [show allPairs (x :: xs) = xs.map (fun y => (x, y)) ++ allPairs xs from rfl]
      rw [List.pairwise_append]
      refine ⟨?_, allPairs_pairwise xs hxs, ?_⟩
      · rw [List.pairwise_map]
        refine hxs.imp_of_mem ?_
        intro a b ha hb hab
        constructor
        · intro h
          injection h with h1 h2
          exact hab h2
        · intro h
          injection h with h1 h2
          exact hx (h1 ▸ hb)
      · intro p hp q hq
        obtain ⟨y, hy, rfl⟩ := List.mem_map.mp hp
        obtain ⟨hq1, hq2⟩ := mem_allPairs xs q hq
        constructor
        · rintro rfl
          exact hx hq1
        · intro h
          injection h with h1 h2
          exact hx (h1 ▸ hq2)

theorem degOk_iff (g : Graph) (u : Nat) :
    degOk g u = true ↔ ∃ l1, getAdj g u = some l1 ∧ 1 < l1.length := by
  unfold degOk
  rcases h : getAdj g u with _ | l <;> simp [h]

theorem msFilter_eq_some {g : Graph} {p : Nat × Nat} {e : (Nat × Nat) × ℚ} :
    msFilter g p = some e ↔
      degOk g p.1 = true ∧ degOk g p.2 = true ∧ 0 < jaccard_similarity g p.1 p.2 ∧
        e = (p, jaccard_similarity g p.1 p.2) := by
  unfold msFilter
  constructor
  · intro h
    by_cases hd : (degOk g p.1 && degOk g p.2) = true
    · rw [if_pos hd] at h
      by_cases hs : 0 < jaccard_similarity g p.1 p.2
      · rw [if_pos hs] at h
        obtain rfl : (p, jaccard_similarity g p.1 p.2) = e := by injection h
        rw [Bool.and_eq_true] at hd
        exact ⟨hd.1, hd.2, hs, rfl⟩
      · rw [if_neg hs] at h
        exact absurd h (by simp)
    · rw [if_neg hd] at h
      exact absurd h (by simp)
  · rintro ⟨h1, h2, h3, rfl⟩
    rw [if_pos (by rw [h1, h2]; rfl), if_pos h3]

/-- Sorting with the program comparator yields a non-increasing sequence
of the projected rational values. -/
theorem mergeSort_desc_pairwise {α : Type} (f : α → ℚ) (l : List α) :
    (List.mergeSort l (fun a b => decide (f b ≤ f a))).Pairwise (fun a b => f b ≤ f a) := by
  have h : (List.mergeSort l (fun a b => decide (f b ≤ f a))).Pairwise
      (fun a b => decide (f b ≤ f a) = true) :=
    List.sorted_mergeSort
      (fun a b c h1 h2 => by
        simp only [decide_eq_true_eq] at h1 h2 ⊢
        exact le_trans h2 h1)
      (fun a b => by
        simp only [Bool.or_eq_true, decide_eq_true_eq]
        exact le_total (f b) (f a))
      l
  exact h.imp (fun h2 => of_decide_eq_true h2)

/-! ### The claims. -/

/-- The triangle graph used by the crate's own unit tests. -/
def gTri : Graph := ⟨[(0, [1, 2]), (1, [0, 2]), (2, [0, 1])], 3, 3⟩

/-- C1: for every (symmetric, as all constructed graphs are) graph `g` and
start `s`, `bfs_distances(g, s)` maps `s` to `0`, maps every node
reachable from `s` to the length of a shortest undirected path from `s`,
and has no entry for any unreachable node. -/
theorem claim_c1 (g : Graph) (s : Nat) (hsym : isSymm g = true) :
    lookupD (bfs_distances g s) s = some 0 ∧
    (∀ x d, lookupD (bfs_distances g s) x = some d ↔
      (UReachN g s x d ∧ ∀ m, UReachN g s x m → d ≤ m)) ∧
    (∀ x, (∀ m, ¬ UReachN g s x m) → lookupD (bfs_distances g s) x = none) := by
  refine ⟨(bfs_final g s).szero, ?_, ?_⟩
  · intro x d
    rw [bfs_characterization]
    constructor
    · rintro ⟨h1, h2⟩
      exact ⟨(reachN_iff_uReachN hsym s x d).mp h1,
        fun m hm => h2 m ((reachN_iff_uReachN hsym s x m).mpr hm)⟩
    · rintro ⟨h1, h2⟩
      exact ⟨(reachN_iff_uReachN hsym s x d).mpr h1,
        fun m hm => h2 m ((reachN_iff_uReachN hsym s x m).mp hm)⟩
  · intro x hx
    rcases h : lookupD (bfs_distances g s) x with _ | d
    · rfl
    · have h2 := (bfs_final g s).sound x d h
      exact absurd ((reachN_iff_uReachN hsym s x d).mp h2) (hx d)

theorem claim_c1_witness :
    lookupD (bfs_distances gTri 0) 0 = some 0 ∧
    (∀ x d, lookupD (bfs_distances gTri 0) x = some d ↔
      (UReachN gTri 0 x d ∧ ∀ m, UReachN gTri 0 x m → d ≤ m)) ∧
    (∀ x, (∀ m, ¬ UReachN gTri 0 x m) → lookupD (bfs_distances gTri 0) x = none) :=
  claim_c1 gTri 0 (by decide)

/-- C2 counterexample: a line whose single token does not parse as an
integer does not leave the loader running normally: the `unwrap` in the
parsing chain panics (modelled by `none`), so the claim that every
malformed line is silently skipped is false. -/
theorem claim_c2_counterexample : load_from_file [[(none : Option Nat)]] = none := rfl

/-- C2 (amended): a line whose tokens all parse as integers but whose
token count is not two is silently skipped, leaving the graph unchanged
and continuing with the remaining lines; but a line containing a
non-integer token makes loading panic. -/
theorem claim_c2 (g : Graph) (toks : List (Option Nat)) (rest : List (List (Option Nat))) :
    ((∀ t ∈ toks, t.isSome) → toks.length ≠ 2 → loadAux g (toks :: rest) = loadAux g rest) ∧
    (none ∈ toks → loadAux g (toks :: rest) = none) := by
  constructor
  · intro hall hlen
    have hnn : none ∉ toks := fun h => by simpa using hall none h
    rcases hct : collectTokens toks with _ | parts
    · exact absurd ((collectTokens_eq_none_iff toks).mp hct) hnn
    · have hplen : parts.length = toks.length := collectTokens_length hct
      have hpl : processLine g toks = some g := by
        simp [processLine, parseLine, hct, hplen, hlen]
      rw [loadAux_cons, hpl]
  · intro hmem
    have hct : collectTokens toks = none := (collectTokens_eq_none_iff toks).mpr hmem
    have hpl : processLine g toks = none := by simp [processLine, parseLine, hct]
    rw [loadAux_cons, hpl]

theorem claim_c2_witness :
    loadAux Graph.new [[some 1, some 2, some 3]] = loadAux Graph.new [] ∧
    loadAux Graph.new [[some 1, none]] = none :=
  ⟨(claim_c2 Graph.new [some 1, some 2, some 3] []).1 (by decide) (by decide),
   (claim_c2 Graph.new [some 1, none] []).2 (by decide)⟩

/-- C3: the Analysis Engine functions are total. The BFS loop always
returns normally (`distance[&current]` never misses, modelled by the
`Option`-valued loop returning `some`), the `(dist.len() - 1)` subtraction
in `closeness_centrality` never underflows (the map holds at least the
start node, witnessed by the checked variant returning `some`).
`average_distance`, `jaccard_similarity` and `most_similar_pairs` are
total Lean functions whose divisions are all explicitly guarded; in the
exact rational model of `f64` no NaN can arise, so the `partial_cmp`
unwraps in the two sorts always succeed. -/
theorem claim_c3 (g : Graph) (s : Nat) :
    bfsAux g [s] [(s, 0)] [s] = some (bfs_distances g s) ∧
    1 ≤ (bfs_distances g s).length ∧
    closeness_centralityChecked g = some (closeness_centrality g) :=
  ⟨bfsAux_run g s, one_le_length_bfs g s, closeness_checked_eq g⟩

/-- C6: `average_distance` is the sum of all strictly positive distances
over every node's BFS map divided by their count, `0` when that count is
zero; the division is guarded, so there is no arithmetic fault. -/
theorem claim_c6 (g : Graph) :
    average_distance g
      = if (posDists g).length = 0 then 0
        else ((posDists g).sum : ℚ) / ((posDists g).length : ℚ) :=
  average_distance_eq g

/-- C10: the BFS map always contains the entry `s ↦ 0` and is never
empty; when the start node is absent from the adjacency map the result is
exactly the singleton `{s ↦ 0}`. -/
theorem claim_c10 (g : Graph) (s : Nat) :
    lookupD (bfs_distances g s) s = some 0 ∧ bfs_distances g s ≠ [] ∧
    (getAdj g s = none → bfs_distances g s = [(s, 0)]) := by
  refine ⟨(bfs_final g s).szero, bfs_distances_ne_nil g s, ?_⟩
  intro h
  have h1 : lookupD [(s, 0)] s = some 0 := by rw [lookupD_cons, if_pos rfl]
  have h2 := bfsAux_cons_none g [s] [(s, 0)] s [] 0 h1 h
  rw [bfs_distances, h2, bfsAux_nil]
  rfl

theorem claim_c10_witness :
    lookupD (bfs_distances gTri 7) 7 = some 0 ∧ bfs_distances gTri 7 = [(7, 0)] :=
  ⟨(claim_c10 gTri 7).1, (claim_c10 gTri 7).2.2 (by decide)⟩

/-- C7: `jaccard_similarity` returns `0` when either node is absent,
otherwise `|S(u) ∩ S(v)| / |S(u) ∪ S(v)|` over the two neighbour sets
(with `0` when the union is empty), and the result always lies in
`[0, 1]`. -/
theorem claim_c7 (g : Graph) (u v : Nat) (hWF : WF g) :
    ((getAdj g u = none ∨ getAdj g v = none) → jaccard_similarity g u v = 0) ∧
    (∀ s1 s2, getAdj g u = some s1 → getAdj g v = some s2 →
      jaccard_similarity g u v
        = if (s1.toFinset ∪ s2.toFinset).card = 0 then 0
          else ((s1.toFinset ∩ s2.toFinset).card : ℚ)
              / ((s1.toFinset ∪ s2.toFinset).card : ℚ)) ∧
    0 ≤ jaccard_similarity g u v ∧ jaccard_similarity g u v ≤ 1 := by
  rcases h1 : getAdj g u with _ | s1
  · have hj : jaccard_similarity g u v = 0 := by
      simp [jaccard_similarity, h1]
    refine ⟨fun _ => hj, ?_, by rw [hj], by rw [hj]; norm_num⟩
    intro t1 t2 ht1 _
    exact absurd ht1 (by simp)
  · rcases h2 : getAdj g v with _ | s2
    · have hj : jaccard_similarity g u v = 0 := by
        simp [jaccard_similarity, h1, h2]
      refine ⟨fun _ => hj, ?_, by rw [hj], by rw [hj]; norm_num⟩
      intro t1 t2 _ ht2
      exact absurd ht2 (by simp)
    · have hn1 : s1.Nodup := nodup_of_getAdj hWF h1
      have hn2 : s2.Nodup := nodup_of_getAdj hWF h2
      have hj : jaccard_similarity g u v
          = if (s1 ++ s2.filter (fun x => decide (x ∉ s1))).length = 0 then 0
            else ((s1.filter (fun x => decide (x ∈ s2))).length : ℚ)
                / ((s1 ++ s2.filter (fun x => decide (x ∉ s1))).length : ℚ) := by
        simp [jaccard_similarity, h1, h2]
      rw [inter_length hn1, union_length hn1 hn2] at hj
      have hle : (s1.toFinset ∩ s2.toFinset).card ≤ (s1.toFinset ∪ s2.toFinset).card :=
        Finset.card_le_card
          (Finset.Subset.trans Finset.inter_subset_left Finset.subset_union_left)
      have hbounds : 0 ≤ jaccard_similarity g u v ∧ jaccard_similarity g u v ≤ 1 := by
        rw [hj]
        by_cases hz : (s1.toFinset ∪ s2.toFinset).card = 0
        · rw [if_pos hz]
          norm_num
        · rw [if_neg hz]
          have hz2 : (0 : ℚ) < ((s1.toFinset ∪ s2.toFinset).card : ℚ) := by
            exact_mod_cast Nat.pos_of_ne_zero hz
          constructor
          · positivity
          · rw [div_le_one hz2]
            exact_mod_cast hle
      refine ⟨?_, ?_, hbounds⟩
      · rintro (h | h)
        · exact absurd h (by simp)
        · exact absurd h (by simp)
      · intro t1 t2 ht1 ht2
        injection ht1 with e1
        injection ht2 with e2
        rw [← e1, ← e2]
        exact hj

theorem claim_c7_witness :
    ((getAdj gTri 0 = none ∨ getAdj gTri 1 = none) → jaccard_similarity gTri 0 1 = 0) ∧
    (∀ s1 s2, getAdj gTri 0 = some s1 → getAdj gTri 1 = some s2 →
      jaccard_similarity gTri 0 1
        = if (s1.toFinset ∪ s2.toFinset).card = 0 then 0
          else ((s1.toFinset ∩ s2.toFinset).card : ℚ)
              / ((s1.toFinset ∪ s2.toFinset).card : ℚ)) ∧
    0 ≤ jaccard_similarity gTri 0 1 ∧ jaccard_similarity gTri 0 1 ≤ 1 :=
  claim_c7 gTri 0 1 (by decide)

/-- C8: for every graph built by `load_from_file` (repeated symmetric
edge insertion), the adjacency relation is symmetric. -/
theorem claim_c8 (lines : List (List (Option Nat))) (g : Graph)
    (h : load_from_file lines = some g) : ∀ u v, adjMem g u v ↔ adjMem g v u := by
  rw [load_from_file] at h
  rcases Option.map_eq_some'.mp h with ⟨g0, hg0, rfl⟩
  have hsym : SymmAdj g0 := (loadAux_invariants lines Graph.new g0 hg0).2.2 symmAdj_new
  intro u v
  exact ⟨fun h2 => hsym u v h2, fun h2 => hsym v u h2⟩

theorem claim_c8_witness :
    adjMem (⟨[(0, [1]), (1, [0, 2]), (2, [1])], 3, 2⟩ : Graph) 1 2 ↔
      adjMem (⟨[(0, [1]), (1, [0, 2]), (2, [1])], 3, 2⟩ : Graph) 2 1 :=
  claim_c8 [[some 0, some 1], [some 1, some 2]] _ (by decide) 1 2

/-- C9: after a successful load, `num_edges` counts exactly the lines
with two integer tokens (duplicates included), and `num_nodes` is the
number of (distinct) keys of the adjacency map. -/
theorem claim_c9 (lines : List (List (Option Nat))) (g : Graph)
    (h : load_from_file lines = some g) :
    g.num_edges = (lines.filter goodLine).length ∧
    g.num_nodes = g.adj_list.length ∧ (keys g).Nodup := by
  rw [load_from_file] at h
  rcases Option.map_eq_some'.mp h with ⟨g0, hg0, rfl⟩
  obtain ⟨he, hnd, _⟩ := loadAux_invariants lines Graph.new g0 hg0
  refine ⟨?_, rfl, ?_⟩
  · have h1 : ({ g0 with num_nodes := g0.adj_list.length } : Graph).num_edges
        = g0.num_edges := rfl
    rw [h1, he]
    simp [Graph.new]
  · have h1 : keys { g0 with num_nodes := g0.adj_list.length } = keys g0 := rfl
    rw [h1]
    exact hnd (by simp [keys, Graph.new])

theorem claim_c9_witness :
    (⟨[(0, [1]), (1, [0, 2]), (2, [1])], 3, 3⟩ : Graph).num_edges
      = (([[some 0, some 1], [some 1, some 2], [some 0, some 1],
          [some 7]] : List (List (Option Nat))).filter goodLine).length ∧
    (⟨[(0, [1]), (1, [0, 2]), (2, [1])], 3, 3⟩ : Graph).num_nodes
      = (⟨[(0, [1]), (1, [0, 2]), (2, [1])], 3, 3⟩ : Graph).adj_list.length ∧
    (keys (⟨[(0, [1]), (1, [0, 2]), (2, [1])], 3, 3⟩ : Graph)).Nodup :=
  claim_c9 [[some 0, some 1], [some 1, some 2], [some 0, some 1], [some 7]] _ (by decide)

/-- C5: `closeness_centrality` returns one entry per node, each carrying
`(|BFS map| - 1) / (sum of BFS distances)` (or `0` on a zero sum), in
non-increasing closeness order; the keys of a node's BFS map are exactly
the nodes reachable from it, so `|BFS map|` is the size of the reachable
set. -/
theorem claim_c5 (g : Graph) (hWF : WF g) :
    ((closeness_centrality g).map (·.1)).Perm (keys g) ∧
    ((closeness_centrality g).map (·.1)).Nodup ∧
    (∀ e ∈ closeness_centrality g, e.2 = closenessVal g e.1) ∧
    (closeness_centrality g).Pairwise (fun a b => b.2 ≤ a.2) ∧
    (∀ v x, (lookupD (bfs_distances g v) x).isSome ↔ ∃ n, ReachN g v x n) := by
  have hperm : List.Perm (closeness_centrality g)
      ((keys g).map (fun node => (node, closenessVal g node))) :=
    List.mergeSort_perm _ _
  have hp1 : ((closeness_centrality g).map (·.1)).Perm (keys g) := by
    have h2 := hperm.map (·.1)
    rw [List.map_map] at h2
    have h3 : List.map ((fun x : Nat × ℚ => x.1) ∘ fun node => (node, closenessVal g node))
        (keys g) = keys g := by
      simp [Function.comp_def]
    rwa [h3] at h2
  refine ⟨hp1, hp1.nodup_iff.mpr hWF.1, ?_, ?_, ?_⟩
  · intro e he
    have he2 := hperm.mem_iff.mp he
    obtain ⟨node, _, rfl⟩ := List.mem_map.mp he2
    rfl
  · exact mergeSort_desc_pairwise (fun e : Nat × ℚ => e.2) _
  · intro v x
    constructor
    · intro h
      obtain ⟨dx, hdx⟩ := Option.isSome_iff_exists.mp h
      exact ⟨dx, (bfs_final g v).sound x dx hdx⟩
    · rintro ⟨n, hn⟩
      obtain ⟨dx, hdx, _⟩ := bfs_complete g v x n hn
      simp [hdx]

theorem claim_c5_witness :
    ((closeness_centrality gTri).map (·.1)).Perm (keys gTri) ∧
    ((closeness_centrality gTri).map (·.1)).Nodup ∧
    (∀ e ∈ closeness_centrality gTri, e.2 = closenessVal gTri e.1) ∧
    (closeness_centrality gTri).Pairwise (fun a b => b.2 ≤ a.2) ∧
    (∀ v x, (lookupD (bfs_distances gTri v) x).isSome ↔ ∃ n, ReachN gTri v x n) :=
  claim_c5 gTri (by decide)

/-- C4: `most_similar_pairs` returns at most `top_n` entries; every entry
is an unordered pair of distinct present nodes with strictly positive
similarity whose endpoints both have at least two neighbours; no pair
occurs twice or in both orientations; the list is sorted non-increasing
by similarity. -/
theorem claim_c4 (g : Graph) (top_n : Nat) (hWF : WF g) :
    (most_similar_pairs g top_n).length ≤ top_n ∧
    (∀ e ∈ most_similar_pairs g top_n,
      e.1.1 ∈ keys g ∧ e.1.2 ∈ keys g ∧ e.1.1 ≠ e.1.2 ∧ 0 < e.2 ∧
      e.2 = jaccard_similarity g e.1.1 e.1.2 ∧
      (∃ l1, getAdj g e.1.1 = some l1 ∧ 1 < l1.length) ∧
      (∃ l2, getAdj g e.1.2 = some l2 ∧ 1 < l2.length)) ∧
    (most_similar_pairs g top_n).Pairwise
      (fun a b => a.1 ≠ b.1 ∧ a.1 ≠ (b.1.2, b.1.1)) ∧
    (most_similar_pairs g top_n).Pairwise (fun a b => b.2 ≤ a.2) := by
  have hperm : List.Perm
      (List.mergeSort ((allPairs (keys g)).filterMap (msFilter g))
        (fun a b => decide (b.2 ≤ a.2)))
      ((allPairs (keys g)).filterMap (msFilter g)) := List.mergeSort_perm _ _
  have htake : most_similar_pairs g top_n
      = (List.mergeSort ((allPairs (keys g)).filterMap (msFilter g))
          (fun a b => decide (b.2 ≤ a.2))).take top_n := rfl
  refine ⟨?_, ?_, ?_, ?_⟩
  · rw [htake, List.length_take]
    exact min_le_left _ _
  · intro e he
    rw [htake] at he
    have he2 := (List.take_sublist _ _).subset he
    have he3 := hperm.mem_iff.mp he2
    obtain ⟨p, hp, hfp⟩ := List.mem_filterMap.mp he3
    obtain ⟨hd1, hd2, hpos, rfl⟩ := msFilter_eq_some.mp hfp
    obtain ⟨hp1, hp2⟩ := mem_allPairs (keys g) p hp
    exact ⟨hp1, hp2, allPairs_fst_ne_snd (keys g) hWF.1 p hp, hpos, rfl,
      (degOk_iff g p.1).mp hd1, (degOk_iff g p.2).mp hd2⟩
  · have hbase := allPairs_pairwise (keys g) hWF.1
    have hL : ((allPairs (keys g)).filterMap (msFilter g)).Pairwise
        (fun a b => a.1 ≠ b.1 ∧ a.1 ≠ (b.1.2, b.1.1)) := by
      refine List.Pairwise.filterMap (msFilter g) ?_ hbase
      intro p q hpq e he e2 he2
      obtain ⟨_, _, _, rfl⟩ := msFilter_eq_some.mp he
      obtain ⟨_, _, _, rfl⟩ := msFilter_eq_some.mp he2
      exact hpq
    have hsymmS : ∀ {a b : (Nat × Nat) × ℚ},
        (a.1 ≠ b.1 ∧ a.1 ≠ (b.1.2, b.1.1)) → (b.1 ≠ a.1 ∧ b.1 ≠ (a.1.2, a.1.1)) := by
      rintro a b ⟨ha, hb⟩
      refine ⟨fun h => ha h.symm, fun h => hb ?_⟩
      rw [h]
    rw [htake]
    exact List.Pairwise.sublist (List.take_sublist _ _)
      ((List.Perm.pairwise_iff hsymmS hperm).mpr hL)
  · rw [htake]
    exact List.Pairwise.sublist (List.take_sublist _ _)
      (mergeSort_desc_pairwise (fun e : (Nat × Nat) × ℚ => e.2) _)

theorem claim_c4_witness :
    (most_similar_pairs gTri 2).length ≤ 2 ∧
    (∀ e ∈ most_similar_pairs gTri 2,
      e.1.1 ∈ keys gTri ∧ e.1.2 ∈ keys gTri ∧ e.1.1 ≠ e.1.2 ∧ 0 < e.2 ∧
      e.2 = jaccard_similarity gTri e.1.1 e.1.2 ∧
      (∃ l1, getAdj gTri e.1.1 = some l1 ∧ 1 < l1.length) ∧
      (∃ l2, getAdj gTri e.1.2 = some l2 ∧ 1 < l2.length)) ∧
    (most_similar_pairs gTri 2).Pairwise
      (fun a b => a.1 ≠ b.1 ∧ a.1 ≠ (b.1.2, b.1.1)) ∧
    (most_similar_pairs gTri 2).Pairwise (fun a b => b.2 ≤ a.2) :=
  claim_c4 gTri 2 (by decide)
